import Mathlib

/-
Verification of the crease-identification mesh pipeline.

The topology core (packages/topology/preprocessing.py: compute_face_normals,
build_edge_face_map, compute_dihedral_angles, detect_sharp_edges,
segment_smooth_regions) is declared and called by the scripts but its
implementation file is not present in the repository snapshot; those
definitions are modelled from the specification (sections 4.1 to 4.4, 7).
The definitions for get_region_boundary_edges, export_regions,
load_regions_from_csv and generate_statistics are translated directly from
scripts/crease_identification.py and tools/visualize_regions.py.
-/

namespace CreaseId

/-- A vertex position: three real coordinates (floats in the program). -/
abbrev Vec3 := ℝ × ℝ × ℝ

/-- A face: an ordered triple of vertex indices. -/
abbrev Face := ℕ × ℕ × ℕ

/-- An edge: a canonicalized (sorted) unordered pair of vertex indices. -/
abbrev Edge := ℕ × ℕ

def vzero : Vec3 := (0, 0, 0)

def vsub (a b : Vec3) : Vec3 := (a.1 - b.1, a.2.1 - b.2.1, a.2.2 - b.2.2)

def dot (a b : Vec3) : ℝ := a.1 * b.1 + a.2.1 * b.2.1 + a.2.2 * b.2.2

def cross (a b : Vec3) : Vec3 :=
  (a.2.1 * b.2.2 - a.2.2 * b.2.1,
   a.2.2 * b.1 - a.1 * b.2.2,
   a.1 * b.2.1 - a.2.1 * b.1)

noncomputable def vnorm (a : Vec3) : ℝ := Real.sqrt (dot a a)

noncomputable def smul (c : ℝ) (a : Vec3) : Vec3 := (c * a.1, c * a.2.1, c * a.2.2)

/-- Modelled from the spec: the Normal Estimator's normalization step
(spec 4.1); packages/topology/preprocessing.py is missing from the sources.
A vector of zero magnitude is sent to the zero-vector sentinel instead of
dividing by zero. -/
noncomputable def normalize (a : Vec3) : Vec3 :=
  if vnorm a = 0 then vzero else smul (vnorm a)⁻¹ a

/-- Modelled from the spec: compute_face_normals for one face (spec 4.1);
packages/topology/preprocessing.py is missing from the sources. The normal
is the normalized cross product (v1 - v0) x (v2 - v0). -/
noncomputable def face_normal (V : List Vec3) (f : Face) : Vec3 :=
  let v0 := V.getD f.1 vzero
  let v1 := V.getD f.2.1 vzero
  let v2 := V.getD f.2.2 vzero
  normalize (cross (vsub v1 v0) (vsub v2 v0))

/-- Canonicalize an edge by sorting its endpoint indices (min, max). -/
def canonEdge (a b : ℕ) : Edge := if a ≤ b then (a, b) else (b, a)

/-- The three edges of a face, pairing consecutive vertices with wrap-around,
each canonicalized; matches the edge list built in get_region_boundary_edges
(tools/visualize_regions.py) and spec 4.2. -/
def faceEdges (f : Face) : List Edge :=
  [canonEdge f.1 f.2.1, canonEdge f.2.1 f.2.2, canonEdge f.2.2 f.1]

/-- One step of the dictionary-of-lists idiom used throughout the program:
append v to the entry of key k, creating the entry on first sight. -/
def mmAdd {α β : Type} [DecidableEq α] (acc : List (α × List β)) (k : α) (v : β) :
    List (α × List β) :=
  if acc.any (fun p => decide (p.1 = k)) then
    acc.map (fun p => if p.1 = k then (p.1, p.2 ++ [v]) else p)
  else acc ++ [(k, [v])]

/-- Build a Python-style dict of lists (insertion-ordered association list)
from a stream of key-value pairs. -/
def mmBuild {α β : Type} [DecidableEq α] (ps : List (α × β)) : List (α × List β) :=
  ps.foldl (fun acc p => mmAdd acc p.1 p.2) []

/-- Look up the list stored under key k, empty if the key is absent. -/
def mmGet {α β : Type} [DecidableEq α] (m : List (α × List β)) (k : α) : List β :=
  match m.find? (fun p => decide (p.1 = k)) with
  | some p => p.2
  | none => []

/-- The stream of (edge, face-index) pairs in the order the adjacency
builder visits them: faces in index order, each face's three edges in order. -/
def edgeFaceStream (F : List Face) : List (Edge × ℕ) :=
  (List.enumFrom 0 F).flatMap (fun p => (faceEdges p.2).map (fun e => (e, p.1)))

/-- Modelled from the spec: build_edge_face_map (spec 4.2);
packages/topology/preprocessing.py is missing from the sources. Maps each
canonical edge to the list of incident face indices in visit order. -/
def build_edge_face_map (F : List Face) : List (Edge × List ℕ) :=
  mmBuild (edgeFaceStream F)

/-- Clamp a dot product into the interval from -1 to 1 before arccos. -/
noncomputable def clamp (x : ℝ) : ℝ := max (-1) (min 1 x)

/-- Modelled from the spec: the dihedral angle of the interior edge e shared
by faces a and b (spec 4.3); packages/topology/preprocessing.py is missing
from the sources. The unsigned angle in degrees is the clamped arccos of the
dot product of the two unit normals; the sign convention chosen here extends
it to the interval from 0 to 360 degrees by reflecting to 360 - angle when
the cross product of the two normals points against the edge direction.
Edges incident to a degenerate (zero) normal get the undefined value none. -/
noncomputable def dihedralAngle (V : List Vec3) (F : List Face) (a b : ℕ) (e : Edge) :
    Option ℝ :=
  let na := face_normal V (F.getD a (0, 0, 0))
  let nb := face_normal V (F.getD b (0, 0, 0))
  if na = vzero ∨ nb = vzero then none
  else
    let θ := Real.arccos (clamp (dot na nb)) * 180 / Real.pi
    let d := vsub (V.getD e.2 vzero) (V.getD e.1 vzero)
    some (if dot (cross na nb) d < 0 then 360 - θ else θ)

/-- Modelled from the spec: compute_dihedral_angles (spec 4.3);
packages/topology/preprocessing.py is missing from the sources. Maps every
interior edge (exactly two incident faces) to its dihedral angle, none when
a normal is degenerate. -/
noncomputable def compute_dihedral_angles (V : List Vec3) (F : List Face) :
    List (Edge × Option ℝ) :=
  (build_edge_face_map F).filterMap (fun p =>
    match p.2 with
    | [a, b] => some (p.1, dihedralAngle V F a b p.1)
    | _ => none)

/-- Modelled from the spec: detect_sharp_edges (spec 4.3);
packages/topology/preprocessing.py is missing from the sources. An interior
edge is sharp exactly when its dihedral angle is defined and is greater than
or equal to the caller-supplied threshold (inclusive comparison). -/
noncomputable def detect_sharp_edges (V : List Vec3) (F : List Face) (theta0 : ℝ) :
    List Edge :=
  (compute_dihedral_angles V F).filterMap (fun p =>
    match p.2 with
    | some a => if theta0 ≤ a then some p.1 else none
    | none => none)

/-- Modelled from the spec: the implicit face graph of the Region Segmenter
(spec 4.4); packages/topology/preprocessing.py is missing from the sources.
Two faces are neighbors exactly when they share an interior edge (two
incident faces) that is not in the sharp edge set. -/
def smoothNeighbors (F : List Face) (sharp : List Edge) (f : ℕ) : List ℕ :=
  (build_edge_face_map F).flatMap (fun p =>
    match p.2 with
    | [a, b] =>
        if p.1 ∈ sharp then []
        else if f = a then [b] else if f = b then [a] else []
    | _ => [])

/-- Breadth-first traversal collecting one connected component: pop the
front of the queue, skip visited faces, otherwise mark visited, append to
the region, and enqueue the face's smooth neighbors. Fuel bounds the loop. -/
def bfsAux (nbr : ℕ → List ℕ) : ℕ → List ℕ → Finset ℕ → List ℕ → Finset ℕ × List ℕ
  | 0, _, vis, reg => (vis, reg)
  | _ + 1, [], vis, reg => (vis, reg)
  | fuel + 1, f :: stk, vis, reg =>
      if f ∈ vis then bfsAux nbr fuel stk vis reg
      else bfsAux nbr fuel (stk ++ nbr f) (insert f vis) (reg ++ [f])

/-- One step of the segmentation loop: skip an already visited face,
otherwise flood its component and append it as a new region. -/
def segStep (nbr : ℕ → List ℕ) (fuel : ℕ) (st : Finset ℕ × List (List ℕ)) (i : ℕ) :
    Finset ℕ × List (List ℕ) :=
  if i ∈ st.1 then st
  else
    let r := bfsAux nbr fuel [i] st.1 []
    (r.1, st.2 ++ [r.2])

/-- Modelled from the spec: segment_smooth_regions (spec 4.4);
packages/topology/preprocessing.py is missing from the sources. Connected
components of the smooth face graph, traversed from each unvisited face in
increasing face-index order. The fuel 3F + 2 dominates the traversal work
since each face enqueues at most three neighbors. -/
def segment_smooth_regions (F : List Face) (sharp : List Edge) : List (List ℕ) :=
  ((List.range F.length).foldl
      (segStep (smoothNeighbors F sharp) (3 * F.length + 2))
      ((∅ : Finset ℕ), ([] : List (List ℕ)))).2

/-- The rows written by export_regions (scripts/crease_identification.py):
one row per face per region, in region order then region-internal order,
carrying region_id, face_index and the face's three vertex indices. -/
def export_regions_rows (regions : List (List ℕ)) (faces : List Face) :
    List (ℕ × ℕ × Face) :=
  (List.enumFrom 0 regions).flatMap (fun p =>
    p.2.map (fun fi => (p.1, fi, faces.getD fi (0, 0, 0))))

/-- load_regions_from_csv (tools/visualize_regions.py): reads the region_id
and face_index columns of each row in order and builds a dict mapping each
region_id to its list of face indices, creating entries on first sight. -/
def load_regions_from_csv (rows : List (ℕ × ℕ × Face)) : List (ℕ × List ℕ) :=
  mmBuild (rows.map (fun r => (r.1, r.2.1)))

/-- get_region_boundary_edges (tools/visualize_regions.py): build the
edge-to-faces map over the given face indices and keep the edges with
exactly one incident face, in first-sight order. -/
def get_region_boundary_edges (faces : List Face) (face_indices : List ℕ) :
    List Edge :=
  ((mmBuild (face_indices.flatMap (fun i =>
      (faceEdges (faces.getD i (0, 0, 0))).map (fun e => (e, i))))).filter
    (fun p => decide (p.2.length = 1))).map Prod.fst

/-- The statistics record produced by generate_statistics
(scripts/crease_identification.py). -/
structure MeshStats where
  theta0_threshold_deg : ℝ
  num_interior_edges : ℕ
  num_sharp_edges : ℕ
  num_smooth_regions : ℕ
  region_sizes : List ℕ
  dihedral_angle_min : ℝ
  dihedral_angle_max : ℝ
  dihedral_angle_mean : ℝ
  dihedral_angle_median : ℝ
  dihedral_angle_std : ℝ
  sharp_edge_percentage : ℝ

/-- Minimum of a list of reals, as np.min over a nonempty array. -/
noncomputable def npMin : List ℝ → ℝ
  | [] => 0
  | x :: xs => xs.foldl min x

/-- Maximum of a list of reals, as np.max over a nonempty array. -/
noncomputable def npMax : List ℝ → ℝ
  | [] => 0
  | x :: xs => xs.foldl max x

/-- Mean of a list of reals, as np.mean over a nonempty array. -/
noncomputable def npMean (l : List ℝ) : ℝ := l.sum / l.length

/-- Median of a list of reals, as np.median: the middle element of the
sorted list, or the average of the two middle elements for even length. -/
noncomputable def npMedian (l : List ℝ) : ℝ :=
  let s := l.insertionSort (· ≤ ·)
  if l.length % 2 = 1 then s.getD (l.length / 2) 0
  else (s.getD (l.length / 2 - 1) 0 + s.getD (l.length / 2) 0) / 2

/-- Population standard deviation of a list of reals, as np.std. -/
noncomputable def npStd (l : List ℝ) : ℝ :=
  Real.sqrt ((l.map (fun a => (a - npMean l) ^ 2)).sum / l.length)

/-- generate_statistics (scripts/crease_identification.py): each angle
statistic falls back to 0.0 when the angle list is empty, and the sharp
edge percentage falls back to 0.0 when the dihedral-angle dict is empty. -/
noncomputable def generate_statistics (dihedral : List (Edge × ℝ)) (sharp : List Edge)
    (regions : List (List ℕ)) (theta0 : ℝ) : MeshStats :=
  let angles := dihedral.map Prod.snd
  { theta0_threshold_deg := theta0
    num_interior_edges := dihedral.length
    num_sharp_edges := sharp.length
    num_smooth_regions := regions.length
    region_sizes := regions.map List.length
    dihedral_angle_min := if angles.isEmpty then 0 else npMin angles
    dihedral_angle_max := if angles.isEmpty then 0 else npMax angles
    dihedral_angle_mean := if angles.isEmpty then 0 else npMean angles
    dihedral_angle_median := if angles.isEmpty then 0 else npMedian angles
    dihedral_angle_std := if angles.isEmpty then 0 else npStd angles
    sharp_edge_percentage :=
      if dihedral.isEmpty then 0
      else (sharp.length : ℝ) / (dihedral.length : ℝ) * 100 }

/-- Whether a face is malformed: an out-of-range vertex index, or fewer
than three distinct vertex indices. -/
def isBadFace (V : List Vec3) (f : Face) : Bool :=
  !(f.1 < V.length && f.2.1 < V.length && f.2.2 < V.length)
    || [f.1, f.2.1, f.2.2].dedup.length < 3

/-- Index of the first malformed face, if any. -/
def findBadFace (V : List Vec3) (F : List Face) : Option ℕ :=
  ((List.enumFrom 0 F).find? (fun p => isBadFace V p.2)).map Prod.fst

/-- The single descriptive failure message naming the offending face. -/
def badFaceMsg (i : ℕ) : String := "malformed face " ++ Nat.repr i

/-- Modelled from the spec: validation plus the core computation for one
mesh (spec 7; the validating core callee packages/topology/preprocessing.py
of process_single_mesh is missing from the sources). Malformed input is
rejected with a single descriptive failure naming the offending face before
any normal, adjacency, angle or region computation; otherwise the dihedral
angles, sharp edges and regions are computed and returned to the caller as
by process_single_mesh. The later per-mesh summary printing in main is a
separate step, modelled from the source by summary_sharp_percentage. -/
noncomputable def process_mesh (V : List Vec3) (F : List Face) (theta0 : ℝ) :
    Except String (List (Edge × Option ℝ) × List Edge × List (List ℕ)) :=
  match findBadFace V F with
  | some i => Except.error (badFaceMsg i)
  | none =>
      let ang := compute_dihedral_angles V F
      let sh := detect_sharp_edges V F theta0
      Except.ok (ang, sh, segment_smooth_regions F sh)

/-- The sharp-edge ratio printed by the per-mesh summary loop in main
(scripts/crease_identification.py line 540): num_sharp_edges divided by
num_interior_edges times 100. Python raises ZeroDivisionError when
num_interior_edges is zero, modelled as none. -/
noncomputable def summary_sharp_percentage (num_sharp num_interior : ℕ) : Option ℝ :=
  if num_interior = 0 then none
  else some ((num_sharp : ℝ) / (num_interior : ℝ) * 100)

/-- One full run of the pipeline stages called by process_single_mesh:
dihedral angles, sharp edges at the threshold, and the smooth regions. -/
noncomputable def pipeline_run (V : List Vec3) (F : List Face) (theta0 : ℝ) :
    List (Edge × Option ℝ) × List Edge × List (List ℕ) :=
  (compute_dihedral_angles V F,
   detect_sharp_edges V F theta0,
   segment_smooth_regions F (detect_sharp_edges V F theta0))

/-- The face-to-region-index assignment induced by an ordered region list. -/
def face_region_index (regions : List (List ℕ)) (f : ℕ) : Option ℕ :=
  ((List.enumFrom 0 regions).find? (fun p => p.2.contains f)).map Prod.fst

/-- A single isolated triangle in the plane. -/
noncomputable def tri_vertices : List Vec3 := [(0, 0, 0), (1, 0, 0), (0, 1, 0)]

/-- The face list of the single isolated triangle. -/
def tri_faces : List Face := [(0, 1, 2)]

/-- Membership in the Sharp Edge Set unfolds to the inclusive threshold
comparison on the edge's dihedral angle. -/
lemma detect_mem_iff (V : List Vec3) (F : List Face) (theta0 : ℝ) (e : Edge) :
    e ∈ detect_sharp_edges V F theta0 ↔
      ∃ a : ℝ, (e, some a) ∈ compute_dihedral_angles V F ∧ theta0 ≤ a := by
  unfold detect_sharp_edges
  rw [List.mem_filterMap]
  constructor
  · rintro ⟨⟨e2, a?⟩, hmem, hf⟩
    cases a? with
    | none => simp at hf
    | some a =>
        by_cases h : theta0 ≤ a
        · simp only [h, if_true] at hf
          obtain rfl : e2 = e := by simpa using hf
          exact ⟨a, hmem, h⟩
        · simp [h] at hf
  · rintro ⟨a, hmem, ha⟩
    exact ⟨(e, some a), hmem, by simp [ha]⟩

/-- C3: for every mesh and threshold, an edge is in the Sharp Edge Set
computed by detect_sharp_edges if and only if its dihedral angle is defined
and greater than or equal to the threshold (inclusive comparison), so an
edge whose angle exactly equals the threshold is classified sharp. -/
theorem sharp_iff_angle_ge_threshold (V : List Vec3) (F : List Face) (theta0 : ℝ)
    (e : Edge) :
    e ∈ detect_sharp_edges V F theta0 ↔
      ∃ a : ℝ, (e, some a) ∈ compute_dihedral_angles V F ∧ theta0 ≤ a :=
  detect_mem_iff V F theta0 e

/-- C2: for every mesh and thresholds t1 strictly below t2, the Sharp Edge
Set at t2 is a subset of the Sharp Edge Set at t1: raising the threshold
never adds a sharp edge. -/
theorem sharp_edges_antitone (V : List Vec3) (F : List Face) (t1 t2 : ℝ)
    (h : t1 < t2) :
    detect_sharp_edges V F t2 ⊆ detect_sharp_edges V F t1 := by
  intro e he
  rw [detect_mem_iff] at he ⊢
  obtain ⟨a, hm, ha⟩ := he
  exact ⟨a, hm, le_trans (le_of_lt h) ha⟩

/-- Witness for C2 at the isolated triangle with thresholds 10 and 20. -/
theorem sharp_edges_antitone_witness :
    (10 : ℝ) < 20 ∧
      detect_sharp_edges tri_vertices tri_faces 20 ⊆
        detect_sharp_edges tri_vertices tri_faces 10 :=
  ⟨by norm_num, sharp_edges_antitone tri_vertices tri_faces 10 20 (by norm_num)⟩

/-- C7: the pipeline is deterministic: two runs of the three stages on
identical vertices, faces and threshold produce the identical angle map,
Sharp Edge Set, region list and face-to-region-index assignment. -/
theorem pipeline_deterministic (V1 V2 : List Vec3) (F1 F2 : List Face)
    (t1 t2 : ℝ) (hV : V1 = V2) (hF : F1 = F2) (ht : t1 = t2) :
    pipeline_run V1 F1 t1 = pipeline_run V2 F2 t2 ∧
      face_region_index (pipeline_run V1 F1 t1).2.2 =
        face_region_index (pipeline_run V2 F2 t2).2.2 := by
  subst hV; subst hF; subst ht
  exact ⟨rfl, rfl⟩

/-- Witness for C7 at the isolated triangle with threshold 45. -/
theorem pipeline_deterministic_witness :
    pipeline_run tri_vertices tri_faces 45 = pipeline_run tri_vertices tri_faces 45 ∧
      face_region_index (pipeline_run tri_vertices tri_faces 45).2.2 =
        face_region_index (pipeline_run tri_vertices tri_faces 45).2.2 :=
  pipeline_deterministic tri_vertices tri_vertices tri_faces tri_faces 45 45 rfl rfl rfl

/-- C8: a single isolated triangle yields zero interior edges, zero sharp
edges at every threshold, and exactly one region containing the one face —
but the run does not complete with this result reported: the per-mesh
summary in main divides the sharp-edge count by the zero interior-edge
count, so the sharp-edge ratio of the report is undefined
(ZeroDivisionError) on exactly this input. -/
theorem single_triangle_report_fails (theta0 : ℝ) :
    compute_dihedral_angles tri_vertices tri_faces = [] ∧
      detect_sharp_edges tri_vertices tri_faces theta0 = [] ∧
      segment_smooth_regions tri_faces (detect_sharp_edges tri_vertices tri_faces theta0) =
        [[0]] ∧
      summary_sharp_percentage
          (detect_sharp_edges tri_vertices tri_faces theta0).length
          (compute_dihedral_angles tri_vertices tri_faces).length = none :=
  ⟨rfl, rfl, rfl, rfl⟩

lemma mmGet_nil {α β : Type} [DecidableEq α] (k : α) :
    mmGet ([] : List (α × List β)) k = [] := rfl

lemma mmGet_cons {α β : Type} [DecidableEq α] (a : α) (vs : List β)
    (m : List (α × List β)) (k : α) :
    mmGet ((a, vs) :: m) k = if a = k then vs else mmGet m k := by
  unfold mmGet
  rw [List.find?_cons]
  by_cases h : a = k
  · simp [h]
  · simp [h]

lemma mmGet_not_mem {α β : Type} [DecidableEq α] (m : List (α × List β)) (k : α)
    (h : k ∉ m.map Prod.fst) : mmGet m k = [] := by
  induction m with
  | nil => rfl
  | cons p t ih =>
      obtain ⟨a, vs⟩ := p
      simp only [List.map_cons, List.mem_cons] at h
      push_neg at h
      rw [mmGet_cons, if_neg (Ne.symm h.1), ih h.2]

lemma mmGet_append {α β : Type} [DecidableEq α] (m1 m2 : List (α × List β)) (k : α) :
    mmGet (m1 ++ m2) k = if k ∈ m1.map Prod.fst then mmGet m1 k else mmGet m2 k := by
  induction m1 with
  | nil => simp
  | cons p t ih =>
      obtain ⟨a, vs⟩ := p
      rw [List.cons_append, mmGet_cons, mmGet_cons, ih]
      by_cases h : a = k
      · subst h
        simp
      · rw [if_neg h, if_neg h]
        simp only [List.map_cons, List.mem_cons]
        by_cases h2 : k ∈ t.map Prod.fst
        · rw [if_pos h2, if_pos (Or.inr h2)]
        · rw [if_neg h2, if_neg ?_]
          rintro (rfl | hk)
          · exact h rfl
          · exact h2 hk

lemma mmGet_update {α β : Type} [DecidableEq α] (m : List (α × List β)) (k : α)
    (v : β) (j : α) :
    mmGet (m.map (fun p => if p.1 = k then (p.1, p.2 ++ [v]) else p)) j =
      if j = k ∧ k ∈ m.map Prod.fst then mmGet m j ++ [v] else mmGet m j := by
  induction m with
  | nil => simp
  | cons p t ih =>
      obtain ⟨a, vs⟩ := p
      rw [List.map_cons]
      by_cases hak : a = k
      · subst hak
        rw [if_pos rfl]
        by_cases hj : a = j
        · subst hj
          rw [mmGet_cons, if_pos rfl, mmGet_cons, if_pos rfl,
            if_pos ⟨rfl, by simp⟩]
        · rw [mmGet_cons, if_neg hj, mmGet_cons, if_neg hj, ih,
            if_neg (fun hc => hj (hc.1.symm)),
            if_neg (fun hc : j = a ∧ _ => hj (hc.1.symm))]
      · rw [if_neg hak]
        by_cases hj : a = j
        · subst hj
          rw [mmGet_cons, if_pos rfl, mmGet_cons, if_pos rfl,
            if_neg (fun hc : a = k ∧ _ => hak hc.1)]
        · rw [mmGet_cons, if_neg hj, mmGet_cons, if_neg hj, ih]
          simp only [List.map_cons, List.mem_cons]
          by_cases hc : j = k ∧ k ∈ t.map Prod.fst
          · rw [if_pos hc, if_pos ⟨hc.1, Or.inr hc.2⟩]
          · rw [if_neg hc, if_neg ?_]
            rintro ⟨rfl, (hk | hk)⟩
            · exact hak hk.symm
            · exact hc ⟨rfl, hk⟩

lemma keys_update {α β : Type} [DecidableEq α] (m : List (α × List β)) (k : α)
    (v : β) :
    (m.map (fun p => if p.1 = k then (p.1, p.2 ++ [v]) else p)).map Prod.fst =
      m.map Prod.fst := by
  rw [List.map_map]
  refine List.map_congr_left ?_
  intro p _
  by_cases h : p.1 = k <;> simp [h]

lemma any_key_iff {α β : Type} [DecidableEq α] (acc : List (α × List β)) (k : α) :
    acc.any (fun p => decide (p.1 = k)) = true ↔ k ∈ acc.map Prod.fst := by
  rw [List.any_eq_true]
  constructor
  · rintro ⟨p, hp, he⟩
    exact List.mem_map.mpr ⟨p, hp, by simpa using he⟩
  · intro hm
    obtain ⟨p, hp, he⟩ := List.mem_map.mp hm
    exact ⟨p, hp, by simpa using he⟩

lemma mmGet_mmAdd {α β : Type} [DecidableEq α] (acc : List (α × List β)) (k : α)
    (v : β) (j : α) :
    mmGet (mmAdd acc k v) j = if j = k then mmGet acc k ++ [v] else mmGet acc j := by
  unfold mmAdd
  by_cases hmem : k ∈ acc.map Prod.fst
  · rw [if_pos ((any_key_iff acc k).mpr hmem), mmGet_update]
    by_cases hj : j = k
    · subst hj
      rw [if_pos ⟨rfl, hmem⟩, if_pos rfl]
    · rw [if_neg (fun hc : j = k ∧ _ => hj hc.1), if_neg hj]
  · rw [if_neg (fun ha => hmem ((any_key_iff acc k).mp ha)), mmGet_append]
    by_cases hj : j = k
    · subst hj
      rw [if_neg hmem, mmGet_not_mem acc _ hmem, mmGet_cons, if_pos rfl, if_pos rfl]
      rfl
    · by_cases hacc : j ∈ acc.map Prod.fst
      · rw [if_pos hacc, if_neg hj]
      · rw [if_neg hacc, if_neg hj, mmGet_not_mem acc _ hacc, mmGet_cons,
          if_neg (fun hh => hj hh.symm)]
        rfl

lemma keys_mmAdd_mem {α β : Type} [DecidableEq α] (acc : List (α × List β)) (k : α)
    (v : β) (j : α) :
    j ∈ (mmAdd acc k v).map Prod.fst ↔ j ∈ acc.map Prod.fst ∨ j = k := by
  unfold mmAdd
  by_cases hmem : k ∈ acc.map Prod.fst
  · rw [if_pos ((any_key_iff acc k).mpr hmem), keys_update]
    constructor
    · exact Or.inl
    · rintro (h | rfl)
      · exact h
      · exact hmem
  · rw [if_neg (fun ha => hmem ((any_key_iff acc k).mp ha)), List.map_append,
      List.mem_append]
    simp

lemma keys_mmAdd_nodup {α β : Type} [DecidableEq α] (acc : List (α × List β))
    (k : α) (v : β) (h : (acc.map Prod.fst).Nodup) :
    ((mmAdd acc k v).map Prod.fst).Nodup := by
  unfold mmAdd
  by_cases hmem : k ∈ acc.map Prod.fst
  · rw [if_pos ((any_key_iff acc k).mpr hmem), keys_update]
    exact h
  · rw [if_neg (fun ha => hmem ((any_key_iff acc k).mp ha)), List.map_append,
      List.nodup_append]
    refine ⟨h, by simp, ?_⟩
    intro x hx hx2
    simp only [List.map_cons, List.map_nil, List.mem_singleton] at hx2
    subst hx2
    exact hmem hx

lemma mmGet_foldl {α β : Type} [DecidableEq α] (ps : List (α × β)) :
    ∀ (acc : List (α × List β)) (k : α),
      mmGet (ps.foldl (fun a p => mmAdd a p.1 p.2) acc) k =
        mmGet acc k ++ (ps.filter (fun p => decide (p.1 = k))).map Prod.snd := by
  induction ps with
  | nil => intro acc k; simp
  | cons q t ih =>
      intro acc k
      rw [List.foldl_cons, ih, mmGet_mmAdd, List.filter_cons]
      by_cases h : k = q.1
      · subst h
        rw [if_pos rfl, if_pos (by simp)]
        simp
      · rw [if_neg h, if_neg (by simpa using fun hh => h hh.symm)]

lemma mmGet_mmBuild {α β : Type} [DecidableEq α] (ps : List (α × β)) (k : α) :
    mmGet (mmBuild ps) k = (ps.filter (fun p => decide (p.1 = k))).map Prod.snd := by
  unfold mmBuild
  rw [mmGet_foldl]
  rfl

lemma mem_keys_foldl {α β : Type} [DecidableEq α] (ps : List (α × β)) :
    ∀ (acc : List (α × List β)) (j : α),
      (j ∈ (ps.foldl (fun a p => mmAdd a p.1 p.2) acc).map Prod.fst ↔
        j ∈ acc.map Prod.fst ∨ j ∈ ps.map Prod.fst) := by
  induction ps with
  | nil => simp
  | cons q t ih =>
      intro acc j
      rw [List.foldl_cons, ih, keys_mmAdd_mem]
      simp only [List.map_cons, List.mem_cons]
      tauto

lemma mem_keys_mmBuild {α β : Type} [DecidableEq α] (ps : List (α × β)) (j : α) :
    j ∈ (mmBuild ps).map Prod.fst ↔ j ∈ ps.map Prod.fst := by
  unfold mmBuild
  rw [mem_keys_foldl]
  simp

lemma keys_foldl_nodup {α β : Type} [DecidableEq α] (ps : List (α × β)) :
    ∀ (acc : List (α × List β)), (acc.map Prod.fst).Nodup →
      ((ps.foldl (fun a p => mmAdd a p.1 p.2) acc).map Prod.fst).Nodup := by
  induction ps with
  | nil => intro acc h; exact h
  | cons q t ih =>
      intro acc h
      rw [List.foldl_cons]
      exact ih _ (keys_mmAdd_nodup acc q.1 q.2 h)

lemma keys_mmBuild_nodup {α β : Type} [DecidableEq α] (ps : List (α × β)) :
    ((mmBuild ps).map Prod.fst).Nodup :=
  keys_foldl_nodup ps [] (by simp)

lemma assoc_mem_iff {α β : Type} [DecidableEq α] (m : List (α × List β))
    (h : (m.map Prod.fst).Nodup) (k : α) (vs : List β) :
    (k, vs) ∈ m ↔ k ∈ m.map Prod.fst ∧ mmGet m k = vs := by
  induction m with
  | nil => simp
  | cons p t ih =>
      obtain ⟨a, ws⟩ := p
      simp only [List.map_cons, List.nodup_cons] at h
      rw [List.mem_cons, mmGet_cons, List.map_cons, List.mem_cons]
      by_cases hak : a = k
      · subst hak
        rw [if_pos rfl]
        constructor
        · rintro (he | hmem)
          · have h2 : vs = ws := (Prod.mk.injEq _ _ _ _ ▸ he).2
            exact ⟨Or.inl rfl, h2.symm⟩
          · exact absurd (List.mem_map.mpr ⟨(a, vs), hmem, rfl⟩) h.1
        · rintro ⟨_, rfl⟩
          exact Or.inl rfl
      · rw [if_neg hak, ih h.2]
        constructor
        · rintro (he | hmem)
          · exact absurd (Prod.mk.injEq _ _ _ _ ▸ he).1.symm hak
          · exact ⟨Or.inr hmem.1, hmem.2⟩
        · rintro ⟨(rfl | hm), hget⟩
          · exact absurd rfl hak
          · exact Or.inr ⟨hm, hget⟩

lemma edge_stream_fst (faces : List Face) (fis : List ℕ) :
    (fis.flatMap (fun i =>
        (faceEdges (faces.getD i (0, 0, 0))).map (fun e => (e, i)))).map Prod.fst =
      fis.flatMap (fun i => faceEdges (faces.getD i (0, 0, 0))) := by
  rw [List.map_flatMap]
  simp [List.map_map, Function.comp_def]

lemma count_stream (ps : List (Edge × ℕ)) (e : Edge) :
    (ps.map Prod.fst).count e = ps.countP (fun p => decide (p.1 = e)) := by
  rw [List.count_eq_countP, List.countP_map]
  refine List.countP_congr ?_
  intro p _
  simp [Function.comp_def]

/-- C4: the boundary edges returned by get_region_boundary_edges are exactly
the canonical edges that occur exactly once in the edge stream of the given
faces, where each face contributes its three consecutive-vertex wrap-around
edges canonicalized as sorted pairs; that is, exactly the edges with one
incident face among the given faces. -/
theorem region_boundary_edges_iff (faces : List Face) (face_indices : List ℕ)
    (e : Edge) :
    e ∈ get_region_boundary_edges faces face_indices ↔
      (face_indices.flatMap (fun i => faceEdges (faces.getD i (0, 0, 0)))).count e =
        1 := by
  unfold get_region_boundary_edges
  rw [← edge_stream_fst faces face_indices, count_stream]
  constructor
  · intro hm
    obtain ⟨⟨e1, vs⟩, hpf, rfl⟩ := List.mem_map.mp hm
    obtain ⟨hpm, hlen⟩ := List.mem_filter.mp hpf
    have hlen1 : vs.length = 1 := by simpa using hlen
    obtain ⟨hk, hget⟩ :=
      (assoc_mem_iff _ (keys_mmBuild_nodup _) e1 vs).mp hpm
    rw [mmGet_mmBuild] at hget
    have hlen2 := congrArg List.length hget
    rw [List.length_map] at hlen2
    rw [List.countP_eq_length_filter, hlen2, hlen1]
  · intro hc
    have hpos : 0 < (face_indices.flatMap (fun i =>
        (faceEdges (faces.getD i (0, 0, 0))).map (fun e2 => (e2, i)))).countP
          (fun p => decide (p.1 = e)) := by
      rw [hc]
      norm_num
    rw [List.countP_pos_iff] at hpos
    obtain ⟨q, hq, hqe⟩ := hpos
    have hkey : e ∈ (mmBuild (face_indices.flatMap (fun i =>
        (faceEdges (faces.getD i (0, 0, 0))).map (fun e2 => (e2, i))))).map
          Prod.fst := by
      rw [mem_keys_mmBuild]
      exact List.mem_map.mpr ⟨q, hq, by simpa using hqe⟩
    have hmem := (assoc_mem_iff _ (keys_mmBuild_nodup _) e _).mpr ⟨hkey, rfl⟩
    refine List.mem_map.mpr ⟨_, List.mem_filter.mpr ⟨hmem, ?_⟩, rfl⟩
    simp only [decide_eq_true_eq]
    rw [mmGet_mmBuild, List.length_map, ← List.countP_eq_length_filter]
    exact hc

lemma bfsAux_spec (nbr : ℕ → List ℕ) :
    ∀ (fuel : ℕ) (stk : List ℕ) (vis : Finset ℕ) (reg : List ℕ),
      ∃ t : List ℕ,
        bfsAux nbr fuel stk vis reg = (vis ∪ t.toFinset, reg ++ t) ∧
          t.Nodup ∧ ∀ x ∈ t, x ∉ vis ∧ (x ∈ stk ∨ ∃ y, x ∈ nbr y) := by
  intro fuel
  induction fuel with
  | zero =>
      intro stk vis reg
      exact ⟨[], by simp [bfsAux], by simp, by simp⟩
  | succ m ih =>
      intro stk vis reg
      cases stk with
      | nil => exact ⟨[], by simp [bfsAux], by simp, by simp⟩
      | cons f stk2 =>
          by_cases hf : f ∈ vis
          · obtain ⟨t, heq, hnd, hprop⟩ := ih stk2 vis reg
            refine ⟨t, ?_, hnd, ?_⟩
            · rw [bfsAux, if_pos hf]
              exact heq
            · intro x hx
              obtain ⟨h1, h2⟩ := hprop x hx
              exact ⟨h1, h2.imp (List.mem_cons_of_mem f) id⟩
          · obtain ⟨t, heq, hnd, hprop⟩ := ih (stk2 ++ nbr f) (insert f vis) (reg ++ [f])
            refine ⟨f :: t, ?_, ?_, ?_⟩
            · rw [bfsAux, if_neg hf, heq]
              refine Prod.ext ?_ ?_
              · show insert f vis ∪ t.toFinset = vis ∪ (f :: t).toFinset
                ext x
                simp only [Finset.mem_union, Finset.mem_insert, List.toFinset_cons,
                  List.mem_toFinset]
                tauto
              · show (reg ++ [f]) ++ t = reg ++ (f :: t)
                simp
            · rw [List.nodup_cons]
              exact ⟨fun hft => (hprop f hft).1 (Finset.mem_insert_self f vis), hnd⟩
            · intro x hx
              rcases List.mem_cons.mp hx with rfl | hxt
              · exact ⟨hf, Or.inl (List.mem_cons_self _ _)⟩
              · obtain ⟨h1, h2⟩ := hprop x hxt
                refine ⟨fun hv => h1 (Finset.mem_insert_of_mem hv), ?_⟩
                rcases h2 with hs | hn
                · rcases List.mem_append.mp hs with hsa | hsb
                  · exact Or.inl (List.mem_cons_of_mem f hsa)
                  · exact Or.inr ⟨f, hsb⟩
                · exact Or.inr hn

lemma stream_snd_lt (F : List Face) : ∀ q ∈ edgeFaceStream F, q.2 < F.length := by
  intro q hq
  unfold edgeFaceStream at hq
  rw [List.mem_flatMap] at hq
  obtain ⟨pr, hpr, hq2⟩ := hq
  obtain ⟨e, _, rfl⟩ := List.mem_map.mp hq2
  obtain ⟨i, x⟩ := pr
  simpa using (List.mem_enumFrom hpr).2.1

lemma edge_face_map_values (F : List Face) :
    ∀ p ∈ build_edge_face_map F, ∀ j ∈ p.2, j < F.length := by
  intro p hp j hj
  obtain ⟨k, vs⟩ := p
  obtain ⟨_, hget⟩ :=
    (assoc_mem_iff _ (keys_mmBuild_nodup _) k vs).mp hp
  rw [mmGet_mmBuild] at hget
  rw [← hget] at hj
  obtain ⟨q, hqf, rfl⟩ := List.mem_map.mp hj
  exact stream_snd_lt F q (List.mem_of_mem_filter hqf)

lemma smoothNeighbors_lt (F : List Face) (sharp : List Edge) :
    ∀ y z, z ∈ smoothNeighbors F sharp y → z < F.length := by
  intro y z hz
  unfold smoothNeighbors at hz
  rw [List.mem_flatMap] at hz
  obtain ⟨p, hp, hzp⟩ := hz
  have hvals : ∀ j ∈ p.2, j < F.length := edge_face_map_values F p hp
  obtain ⟨k, vs⟩ := p
  match vs, hvals, hzp with
  | [], _, hzp => simp at hzp
  | [a], _, hzp => simp at hzp
  | a :: b :: c :: rest, _, hzp => simp at hzp
  | [a, b], hvals, hzp =>
      simp only at hzp
      split_ifs at hzp with h1 h2 h3
      · simp at hzp
      · rw [List.mem_singleton] at hzp
        subst hzp
        exact hvals z (by simp)
      · rw [List.mem_singleton] at hzp
        subst hzp
        exact hvals z (by simp)
      · simp at hzp

lemma segStep_foldl_inv (nbr : ℕ → List ℕ) (m n : ℕ)
    (hnbr : ∀ y z, z ∈ nbr y → z < n) :
    ∀ (l : List ℕ) (st : Finset ℕ × List (List ℕ)),
      (∀ i ∈ l, i < n) →
      st.2.flatten.Nodup →
      st.2.flatten.toFinset = st.1 →
      (∀ x ∈ st.1, x < n) →
      (∀ r ∈ st.2, r ≠ []) →
      ((l.foldl (segStep nbr (m + 1)) st).2.flatten.Nodup ∧
        (l.foldl (segStep nbr (m + 1)) st).2.flatten.toFinset =
          (l.foldl (segStep nbr (m + 1)) st).1 ∧
        (∀ x ∈ (l.foldl (segStep nbr (m + 1)) st).1, x < n) ∧
        (∀ r ∈ (l.foldl (segStep nbr (m + 1)) st).2, r ≠ []) ∧
        (∀ i ∈ l, i ∈ (l.foldl (segStep nbr (m + 1)) st).1) ∧
        st.1 ⊆ (l.foldl (segStep nbr (m + 1)) st).1) := by
  intro l
  induction l with
  | nil =>
      intro st _ h2 h3 h4 h5
      exact ⟨h2, h3, h4, h5, by simp, fun x h => h⟩
  | cons i l2 ih =>
      intro st hl h2 h3 h4 h5
      rw [List.foldl_cons]
      by_cases hi : i ∈ st.1
      · have hstep : segStep nbr (m + 1) st i = st := by
          rw [segStep, if_pos hi]
        rw [hstep]
        obtain ⟨a1, a2, a3, a4, a5, a6⟩ :=
          ih st (fun j hj => hl j (List.mem_cons_of_mem i hj)) h2 h3 h4 h5
        refine ⟨a1, a2, a3, a4, ?_, a6⟩
        intro j hj
        rcases List.mem_cons.mp hj with rfl | hjl
        · exact a6 hi
        · exact a5 j hjl
      · obtain ⟨t, heq, hnd, hprop⟩ := bfsAux_spec nbr m (nbr i) (insert i st.1) [i]
        have hbfs : bfsAux nbr (m + 1) [i] st.1 [] =
            (insert i st.1 ∪ t.toFinset, [i] ++ t) := by
          rw [bfsAux, if_neg hi]
          simpa using heq
        have hstep : segStep nbr (m + 1) st i =
            (insert i st.1 ∪ t.toFinset, st.2 ++ [i :: t]) := by
          rw [segStep, if_neg hi, hbfs]
          rfl
        rw [hstep]
        have hflat : (st.2 ++ [i :: t]).flatten = st.2.flatten ++ (i :: t) := by
          simp
        have htnotvis : ∀ x ∈ t, x ∉ st.1 := by
          intro x hx
          exact fun hv => (hprop x hx).1 (Finset.mem_insert_of_mem hv)
        have hinotT : i ∉ t := fun hit => (hprop i hit).1 (Finset.mem_insert_self i st.1)
        have hnd2 : (st.2 ++ [i :: t]).flatten.Nodup := by
          rw [hflat, List.nodup_append]
          refine ⟨h2, List.nodup_cons.mpr ⟨hinotT, hnd⟩, ?_⟩
          intro x hx hx2
          have hxvis : x ∈ st.1 := h3 ▸ List.mem_toFinset.mpr hx
          rcases List.mem_cons.mp hx2 with rfl | hxt
          · exact hi hxvis
          · exact htnotvis x hxt hxvis
        have hfin2 : (st.2 ++ [i :: t]).flatten.toFinset = insert i st.1 ∪ t.toFinset := by
          rw [hflat]
          ext x
          simp only [List.toFinset_append, Finset.mem_union, List.mem_toFinset,
            List.mem_cons, List.toFinset_cons, Finset.mem_insert]
          constructor
          · rintro (hx | rfl | hx)
            · exact Or.inl (Or.inr (h3 ▸ List.mem_toFinset.mpr hx))
            · exact Or.inl (Or.inl rfl)
            · exact Or.inr hx
          · rintro ((rfl | hx) | hx)
            · exact Or.inr (Or.inl rfl)
            · exact Or.inl (List.mem_toFinset.mp (h3 ▸ hx))
            · exact Or.inr (Or.inr hx)
        have hbound2 : ∀ x ∈ insert i st.1 ∪ t.toFinset, x < n := by
          intro x hx
          rcases Finset.mem_union.mp hx with hx1 | hx2
          · rcases Finset.mem_insert.mp hx1 with rfl | hx3
            · exact hl x (List.mem_cons_self _ _)
            · exact h4 x hx3
          · obtain ⟨-, hsrc⟩ := hprop x (List.mem_toFinset.mp hx2)
            rcases hsrc with hs | ⟨y, hy⟩
            · exact hnbr i x hs
            · exact hnbr y x hy
        have hne2 : ∀ r ∈ st.2 ++ [i :: t], r ≠ [] := by
          intro r hr
          rcases List.mem_append.mp hr with hr1 | hr2
          · exact h5 r hr1
          · rw [List.mem_singleton.mp hr2]
            exact List.cons_ne_nil i t
        obtain ⟨a1, a2, a3, a4, a5, a6⟩ :=
          ih (insert i st.1 ∪ t.toFinset, st.2 ++ [i :: t])
            (fun j hj => hl j (List.mem_cons_of_mem i hj)) hnd2 hfin2 hbound2 hne2
        refine ⟨a1, a2, a3, a4, ?_, ?_⟩
        · intro j hj
          rcases List.mem_cons.mp hj with rfl | hjl
          · exact a6 (Finset.mem_union_left _ (Finset.mem_insert_self j st.1))
          · exact a5 j hjl
        · intro x hx
          exact a6 (Finset.mem_union_left _ (Finset.mem_insert_of_mem hx))

lemma segment_props (F : List Face) (sharp : List Edge) :
    (segment_smooth_regions F sharp).flatten.Nodup ∧
      (∀ f, f ∈ (segment_smooth_regions F sharp).flatten ↔ f < F.length) ∧
      ∀ r ∈ segment_smooth_regions F sharp, r ≠ [] := by
  unfold segment_smooth_regions
  have h32 : 3 * F.length + 2 = (3 * F.length + 1) + 1 := rfl
  obtain ⟨a1, a2, a3, a4, a5, a6⟩ :=
    segStep_foldl_inv (smoothNeighbors F sharp) (3 * F.length + 1) F.length
      (smoothNeighbors_lt F sharp) (List.range F.length) (∅, [])
      (fun i hi => List.mem_range.mp hi) (by simp) (by simp) (by simp) (by simp)
  rw [h32]
  refine ⟨a1, ?_, a4⟩
  intro f
  constructor
  · intro hf
    exact a3 f (a2 ▸ List.mem_toFinset.mpr hf)
  · intro hf
    have hm := a5 f (List.mem_range.mpr hf)
    rw [← a2] at hm
    exact List.mem_toFinset.mp hm

lemma enumFrom_flatMap_proj (regions : List (List ℕ)) (faces : List Face) :
    ∀ k, ((List.enumFrom k regions).flatMap (fun p =>
        (p.2.map (fun fi => (p.1, fi, faces.getD fi (0, 0, 0)))).map
          (fun row => row.2.1))) = regions.flatten := by
  induction regions with
  | nil => intro k; rfl
  | cons r rest ih =>
      intro k
      rw [List.enumFrom_cons, List.flatMap_cons, ih (k + 1)]
      simp [List.map_map, Function.comp_def]

lemma export_rows_face_col (regions : List (List ℕ)) (faces : List Face) :
    (export_regions_rows regions faces).map (fun row => row.2.1) =
      regions.flatten := by
  unfold export_regions_rows
  rw [List.map_flatMap]
  exact enumFrom_flatMap_proj regions faces 0

/-- C1: the regions returned by segment_smooth_regions partition the face
index set: every face index below F appears in exactly one region (count one
across the concatenation of all regions, count zero for out-of-range
indices), and consequently export_regions writes each face index in exactly
one row. -/
theorem regions_partition (F : List Face) (sharp : List Edge) (f : ℕ) :
    (segment_smooth_regions F sharp).flatten.count f =
        (if f < F.length then 1 else 0) ∧
      ((export_regions_rows (segment_smooth_regions F sharp) F).map
          (fun row => row.2.1)).count f = (if f < F.length then 1 else 0) := by
  obtain ⟨hnd, hmem, -⟩ := segment_props F sharp
  have hcount : (segment_smooth_regions F sharp).flatten.count f =
      if f < F.length then 1 else 0 := by
    by_cases h : f < F.length
    · rw [if_pos h]
      exact List.count_eq_one_of_mem hnd ((hmem f).mpr h)
    · rw [if_neg h, List.count_eq_zero]
      exact fun hf => h ((hmem f).mp hf)
  refine ⟨hcount, ?_⟩
  rw [export_rows_face_col]
  exact hcount

lemma export_rows_proj (regions : List (List ℕ)) (faces : List Face) :
    (export_regions_rows regions faces).map (fun r => (r.1, r.2.1)) =
      (List.enumFrom 0 regions).flatMap (fun p => p.2.map (fun fi => (p.1, fi))) := by
  unfold export_regions_rows
  rw [List.map_flatMap]
  simp [List.map_map, Function.comp_def]

lemma rows_filter_eq (regions : List (List ℕ)) :
    ∀ (k i : ℕ),
      ((((List.enumFrom k regions).flatMap
            (fun p => p.2.map (fun fi => (p.1, fi)))).filter
          (fun q => decide (q.1 = i))).map Prod.snd) =
        if k ≤ i then regions.getD (i - k) [] else [] := by
  induction regions with
  | nil =>
      intro k i
      simp
  | cons r rest ih =>
      intro k i
      rw [List.enumFrom_cons, List.flatMap_cons, List.filter_append, List.map_append,
        ih (k + 1)]
      have hfirst : ((r.map (fun fi => (k, fi))).filter
          (fun q => decide (q.1 = i))).map Prod.snd =
          if k = i then r else [] := by
        by_cases hk : k = i
        · subst hk
          rw [if_pos rfl]
          rw [List.filter_map]
          have hp : ((fun q : ℕ × ℕ => decide (q.1 = k)) ∘ fun fi => (k, fi)) =
              fun _ => true := by
            funext fi
            simp
          rw [hp, List.filter_true, List.map_map]
          simp [Function.comp_def]
        · rw [if_neg hk, List.filter_map]
          have hp : ((fun q : ℕ × ℕ => decide (q.1 = i)) ∘ fun fi => (k, fi)) =
              fun _ => false := by
            funext fi
            simpa using hk
          rw [hp, List.filter_false]
          simp
      rw [hfirst]
      by_cases hk : k = i
      · subst hk
        rw [if_pos rfl, if_neg (by omega), if_pos (le_refl k)]
        simp
      · rw [if_neg hk]
        by_cases hle : k ≤ i
        · have hlt : k + 1 ≤ i := by omega
          rw [if_pos hlt, if_pos hle, List.nil_append]
          have harith : i - k = (i - (k + 1)) + 1 := by omega
          rw [harith, List.getD_cons_succ]
        · rw [if_neg (by omega), if_neg hle, List.nil_append]

/-- C9: round-trip of the region export: loading the CSV rows written by
export_regions for the pipeline's region list yields a mapping whose keys
are exactly the region indices 0 to n-1 and whose value at each region
index is the same face-index sequence, in the same order, as that region. -/
theorem export_load_roundtrip (F : List Face) (sharp : List Edge) :
    (∀ i, i ∈ (load_regions_from_csv
          (export_regions_rows (segment_smooth_regions F sharp) F)).map Prod.fst ↔
        i < (segment_smooth_regions F sharp).length) ∧
      ∀ i (h : i < (segment_smooth_regions F sharp).length),
        mmGet (load_regions_from_csv
            (export_regions_rows (segment_smooth_regions F sharp) F)) i =
          (segment_smooth_regions F sharp).get ⟨i, h⟩ := by
  obtain ⟨-, -, hne⟩ := segment_props F sharp
  have hget : ∀ i, mmGet (load_regions_from_csv
      (export_regions_rows (segment_smooth_regions F sharp) F)) i =
      (segment_smooth_regions F sharp).getD i [] := by
    intro i
    unfold load_regions_from_csv
    rw [mmGet_mmBuild, export_rows_proj, rows_filter_eq]
    simp
  constructor
  · intro i
    constructor
    · intro hm
      unfold load_regions_from_csv at hm
      rw [mem_keys_mmBuild, export_rows_proj] at hm
      obtain ⟨q, hq, rfl⟩ := List.mem_map.mp hm
      rw [List.mem_flatMap] at hq
      obtain ⟨p, hp, hqp⟩ := hq
      obtain ⟨fi, -, rfl⟩ := List.mem_map.mp hqp
      obtain ⟨j, x⟩ := p
      simpa using (List.mem_enumFrom hp).2.1
    · intro hlt
      by_contra hnk
      have h0 := mmGet_not_mem _ i hnk
      rw [hget i, List.getD_eq_getElem?_getD, List.getElem?_eq_getElem hlt,
        Option.getD_some] at h0
      exact hne _ (List.getElem_mem hlt) h0
  · intro i h
    rw [hget i, List.getD_eq_getElem?_getD, List.getElem?_eq_getElem h,
      Option.getD_some]
    rfl

/-- Witness for C9 at the isolated triangle: region 0 round-trips. -/
theorem export_load_roundtrip_witness :
    (0 < (segment_smooth_regions tri_faces []).length) ∧
      mmGet (load_regions_from_csv
          (export_regions_rows (segment_smooth_regions tri_faces []) tri_faces)) 0 =
        (segment_smooth_regions tri_faces []).get ⟨0, by decide⟩ :=
  ⟨by decide, (export_load_roundtrip tri_faces []).2 0 (by decide)⟩

/-- C6: a malformed mesh (a face with an out-of-range vertex index or with
fewer than three distinct vertices) is rejected before any computation, with
a single descriptive failure naming the offending face. -/
theorem malformed_input_rejected (V : List Vec3) (F : List Face) (theta0 : ℝ)
    (i : ℕ) (h : findBadFace V F = some i) :
    i < F.length ∧ isBadFace V (F.getD i (0, 0, 0)) = true ∧
      process_mesh V F theta0 = Except.error (badFaceMsg i) := by
  have hproc : process_mesh V F theta0 = Except.error (badFaceMsg i) := by
    unfold process_mesh
    rw [h]
  unfold findBadFace at h
  obtain ⟨p, hfind, hp1⟩ : ∃ p, (List.enumFrom 0 F).find?
      (fun q => isBadFace V q.2) = some p ∧ p.1 = i := by
    cases hf : (List.enumFrom 0 F).find? (fun q => isBadFace V q.2) with
    | none =>
        rw [hf] at h
        simp at h
    | some p =>
        rw [hf] at h
        simp at h
        exact ⟨p, rfl, h⟩
  have hbad := List.find?_some hfind
  have hmem := List.mem_of_find?_eq_some hfind
  obtain ⟨j, x⟩ := p
  obtain ⟨-, hlt, hx⟩ := List.mem_enumFrom hmem
  have hji : j = i := hp1
  subst hji
  have hjlen : j < F.length := by simpa using hlt
  refine ⟨hjlen, ?_, hproc⟩
  rw [List.getD_eq_getElem?_getD, List.getElem?_eq_getElem hjlen, Option.getD_some]
  rw [hx] at hbad
  simpa using hbad

/-- Witness for C6: a one-face mesh whose face has only two distinct
vertices is rejected with the failure naming face 0. -/
theorem malformed_input_rejected_witness :
    findBadFace tri_vertices [(0, 0, 1)] = some 0 ∧
      (0 < ([((0 : ℕ), (0 : ℕ), (1 : ℕ))] : List Face).length ∧
        isBadFace tri_vertices
          (([((0 : ℕ), (0 : ℕ), (1 : ℕ))] : List Face).getD 0 (0, 0, 0)) = true ∧
        process_mesh tri_vertices [(0, 0, 1)] 45 = Except.error (badFaceMsg 0)) :=
  ⟨rfl, malformed_input_rejected tri_vertices [(0, 0, 1)] 45 0 rfl⟩

/-- C10: generate_statistics is total on an empty dihedral-angle mapping:
with zero interior edges every angle statistic and the sharp-edge
percentage are reported as 0.0, and otherwise the sharp-edge percentage is
the sharp count over the interior-edge count times 100. -/
theorem statistics_total (dihedral : List (Edge × ℝ)) (sharp : List Edge)
    (regions : List (List ℕ)) (theta0 : ℝ) :
    (dihedral = [] →
      (generate_statistics dihedral sharp regions theta0).dihedral_angle_min = 0 ∧
        (generate_statistics dihedral sharp regions theta0).dihedral_angle_max = 0 ∧
        (generate_statistics dihedral sharp regions theta0).dihedral_angle_mean = 0 ∧
        (generate_statistics dihedral sharp regions theta0).dihedral_angle_median = 0 ∧
        (generate_statistics dihedral sharp regions theta0).dihedral_angle_std = 0 ∧
        (generate_statistics dihedral sharp regions theta0).sharp_edge_percentage = 0) ∧
      (dihedral ≠ [] →
        (generate_statistics dihedral sharp regions theta0).sharp_edge_percentage =
          (sharp.length : ℝ) / (dihedral.length : ℝ) * 100) := by
  constructor
  · rintro rfl
    exact ⟨rfl, rfl, rfl, rfl, rfl, rfl⟩
  · intro h
    have hne : dihedral.isEmpty = false := by
      cases dihedral with
      | nil => exact absurd rfl h
      | cons a l => rfl
    unfold generate_statistics
    simp [hne]

/-- Witness for C10: the empty mapping reports all-zero statistics, and a
one-edge mapping with one sharp edge reports the ratio formula. -/
theorem statistics_total_witness :
    ((generate_statistics [] [] [] 45).dihedral_angle_min = 0 ∧
        (generate_statistics [] [] [] 45).dihedral_angle_max = 0 ∧
        (generate_statistics [] [] [] 45).dihedral_angle_mean = 0 ∧
        (generate_statistics [] [] [] 45).dihedral_angle_median = 0 ∧
        (generate_statistics [] [] [] 45).dihedral_angle_std = 0 ∧
        (generate_statistics [] [] [] 45).sharp_edge_percentage = 0) ∧
      (generate_statistics [(((0 : ℕ), (1 : ℕ)), (90 : ℝ))] [(0, 1)] [[0]]
            45).sharp_edge_percentage =
        ((([((0 : ℕ), (1 : ℕ))] : List Edge).length : ℝ) /
          (([(((0 : ℕ), (1 : ℕ)), (90 : ℝ))] : List (Edge × ℝ)).length : ℝ) * 100) :=
  ⟨(statistics_total [] [] [] 45).1 rfl,
    (statistics_total [(((0 : ℕ), (1 : ℕ)), (90 : ℝ))] [(0, 1)] [[0]] 45).2
      (by simp)⟩

end CreaseId
